import Mathlib

/-!
Verification of the release-automation workflow in `scripts/update_changelog.py`.

The script is embedded shallowly: pull requests, labels and dates become Lean
structures; the classifier, the changelog rewrite (Python `str.replace`), the
version bump (Python `re.sub` with the concrete pattern
`\nversion = "\d+\.\d+\.\d+"\n`) and the git step become executable Lean
functions on `List Char` / `String`.  Wall-clock inputs (the target merge date,
the release identifier derived from it) and external handles (the rendered
template, the authentication token) are threaded through as explicit
parameters.
-/

set_option autoImplicit false

namespace ChangelogScript

/-- A GitHub label; the script only reads its `name` attribute. -/
structure Label where
  name : String
deriving DecidableEq

/-- A calendar date, the value compared by `pull.merged_at.date() == MERGED_DATE`. -/
structure Date where
  year : Nat
  month : Nat
  day : Nat
deriving DecidableEq

/-- The attributes of a pull request that the script consumes. -/
structure PullRequest where
  number : Nat
  title : String
  merged : Bool
  mergedAt : Date
  labels : List Label
deriving DecidableEq

/-- Embeds `iter_pulls`: take the first page (`get_page(0)`) of the
closed/most-recently-updated listing and keep, in API order, the pull requests
whose `merged` flag is set and whose merge date equals the target date. -/
def iter_pulls (pages : List (List PullRequest)) (target : Date) : List PullRequest :=
  (pages.headD []).filter (fun pull => pull.merged && decide (pull.mergedAt = target))

/-- Embeds `label_names = {l.name for l in pull.labels}` (membership queries on
the set coincide with membership on this list). -/
def labelNames (pull : PullRequest) : List String :=
  pull.labels.map Label.name

/-- Embeds the group-name computation in `group_pulls_by_change_type`:
`"update"` is checked first, then `"bug"`, else the fallback `"Changed"`. -/
def changeType (pull : PullRequest) : String :=
  if "update" ∈ labelNames pull then "Updated"
  else if "bug" ∈ labelNames pull then "Fixed"
  else "Changed"

/-- Embeds `grouped_pulls[group_name].append(pull)` on the association list
that models the Python dict (the key is always present). -/
def appendToGroup (groups : List (String × List PullRequest)) (key : String)
    (pull : PullRequest) : List (String × List PullRequest) :=
  groups.map (fun g => if g.1 = key then (g.1, g.2 ++ [pull]) else g)

/-- The initial dict `{"Changed": [], "Fixed": [], "Updated": []}`, in the
insertion order Python preserves. -/
def initGroups : List (String × List PullRequest) :=
  [("Changed", []), ("Fixed", []), ("Updated", [])]

/-- Embeds `group_pulls_by_change_type`. -/
def group_pulls_by_change_type (pulls : List PullRequest) :
    List (String × List PullRequest) :=
  pulls.foldl (fun groups pull => appendToGroup groups (changeType pull) pull) initGroups

/-- Spec-side classification rule (spec section 4.2), stated from the spec's
words: contains `"update"` gives `"Updated"`; else contains `"bug"` gives
`"Fixed"`; else `"Changed"`. -/
def specCategory (pull : PullRequest) : String :=
  if "update" ∈ labelNames pull then "Updated"
  else if "bug" ∈ labelNames pull then "Fixed"
  else "Changed"

theorem specCategory_eq_changeType : specCategory = changeType := rfl

theorem changeType_eq_or (pull : PullRequest) :
    changeType pull = "Updated" ∨ changeType pull = "Fixed" ∨
      changeType pull = "Changed" := by
  by_cases h1 : "update" ∈ labelNames pull <;>
    by_cases h2 : "bug" ∈ labelNames pull <;> simp [changeType, h1, h2]

theorem group_foldl (pulls : List PullRequest) (a b c : List PullRequest) :
    pulls.foldl (fun groups pull => appendToGroup groups (changeType pull) pull)
        [("Changed", a), ("Fixed", b), ("Updated", c)]
      = [("Changed", a ++ pulls.filter (fun p => changeType p == "Changed")),
         ("Fixed", b ++ pulls.filter (fun p => changeType p == "Fixed")),
         ("Updated", c ++ pulls.filter (fun p => changeType p == "Updated"))] := by
  induction pulls generalizing a b c with
  | nil => simp
  | cons p ps ih =>
    rcases changeType_eq_or p with h | h | h
    · simp only [List.foldl_cons]
      rw [show appendToGroup [("Changed", a), ("Fixed", b), ("Updated", c)] (changeType p) p
            = [("Changed", a), ("Fixed", b), ("Updated", c ++ [p])] from by
          simp [appendToGroup, h], ih]
      simp [List.filter_cons, h, List.append_assoc]
    · simp only [List.foldl_cons]
      rw [show appendToGroup [("Changed", a), ("Fixed", b), ("Updated", c)] (changeType p) p
            = [("Changed", a), ("Fixed", b ++ [p]), ("Updated", c)] from by
          simp [appendToGroup, h], ih]
      simp [List.filter_cons, h, List.append_assoc]
    · simp only [List.foldl_cons]
      rw [show appendToGroup [("Changed", a), ("Fixed", b), ("Updated", c)] (changeType p) p
            = [("Changed", a ++ [p]), ("Fixed", b), ("Updated", c)] from by
          simp [appendToGroup, h], ih]
      simp [List.filter_cons, h, List.append_assoc]

theorem group_eq_filters (pulls : List PullRequest) :
    group_pulls_by_change_type pulls
      = [("Changed", pulls.filter (fun p => changeType p == "Changed")),
         ("Fixed", pulls.filter (fun p => changeType p == "Fixed")),
         ("Updated", pulls.filter (fun p => changeType p == "Updated"))] := by
  simpa using group_foldl pulls [] [] []

/-- Claim C5: every pull request lands in the category chosen by the label
rule: `"update"` yields `"Updated"` (regardless of other labels, including
`"bug"`), else `"bug"` yields `"Fixed"`, else `"Changed"`; the grouped mapping
stores the pull request under exactly that key. -/
theorem claim5_classifier_rule (pulls : List PullRequest) (pull : PullRequest)
    (h : pull ∈ pulls) :
    pull ∈ ((group_pulls_by_change_type pulls).lookup (specCategory pull)).getD [] := by
  rw [specCategory_eq_changeType, group_eq_filters]
  rcases changeType_eq_or pull with hc | hc | hc <;>
    · rw [hc]
      exact List.mem_filter.mpr ⟨h, by simp [hc]⟩

def pullU : PullRequest := ⟨1, "Add feature", true, ⟨2024, 3, 5⟩, [⟨"update"⟩, ⟨"bug"⟩]⟩
def pullB : PullRequest := ⟨2, "Fix crash", true, ⟨2024, 3, 5⟩, [⟨"bug"⟩]⟩
def pullN : PullRequest := ⟨3, "Edit docs", true, ⟨2024, 3, 5⟩, []⟩

def pulls0 : List PullRequest := [pullU, pullB, pullN]

theorem claim5_witness :
    specCategory pullU = "Updated"
    ∧ pullU ∈ ((group_pulls_by_change_type pulls0).lookup (specCategory pullU)).getD [] :=
  ⟨by decide, claim5_classifier_rule pulls0 pullU (by decide)⟩

/-- Claim C6: the grouped mapping always has exactly the keys
`"Changed"`, `"Fixed"`, `"Updated"` in that order (even when empty), each
category holds the input pull requests of its change type in input order, and
every input pull request belongs to exactly one category entry. -/
theorem claim6_grouping_partition (pulls : List PullRequest) :
    (group_pulls_by_change_type pulls).map Prod.fst = ["Changed", "Fixed", "Updated"]
    ∧ group_pulls_by_change_type pulls
        = [("Changed", pulls.filter (fun p => changeType p == "Changed")),
           ("Fixed", pulls.filter (fun p => changeType p == "Fixed")),
           ("Updated", pulls.filter (fun p => changeType p == "Updated"))]
    ∧ ∀ pull, pull ∈ pulls →
        ∃! entry, entry ∈ group_pulls_by_change_type pulls ∧ pull ∈ entry.2 := by
  refine ⟨by rw [group_eq_filters]; rfl, group_eq_filters pulls, ?_⟩
  intro pull hmem
  refine ⟨(changeType pull, pulls.filter (fun p => changeType p == changeType pull)), ?_, ?_⟩
  · constructor
    · rw [group_eq_filters]
      rcases changeType_eq_or pull with hc | hc | hc <;> rw [hc] <;> simp
    · exact List.mem_filter.mpr ⟨hmem, by simp⟩
  · rintro ⟨k, l⟩ ⟨hin, hl⟩
    rw [group_eq_filters] at hin
    simp only [List.mem_cons, List.not_mem_nil, or_false, Prod.mk.injEq] at hin
    rcases hin with ⟨rfl, rfl⟩ | ⟨rfl, rfl⟩ | ⟨rfl, rfl⟩ <;>
      · have hck := (List.mem_filter.mp hl).2
        rw [beq_iff_eq] at hck
        simp [hck]

theorem claim6_witness :
    group_pulls_by_change_type pulls0
      = [("Changed", [pullN]), ("Fixed", [pullB]), ("Updated", [pullU])] := by
  rw [(claim6_grouping_partition pulls0).2.1]
  decide

/-- Label-name-set equivalence: the two pull requests carry the same set of
label names (order and multiplicity disregarded). -/
def sameLabelNames (a b : PullRequest) : Prop :=
  ∀ s : String, s ∈ labelNames a ↔ s ∈ labelNames b

theorem changeType_congr (a b : PullRequest) (h : sameLabelNames a b) :
    changeType a = changeType b := by
  unfold changeType
  by_cases h1 : "update" ∈ labelNames a
  · rw [if_pos h1, if_pos ((h "update").mp h1)]
  · rw [if_neg h1, if_neg (fun hb => h1 ((h "update").mpr hb))]
    by_cases h2 : "bug" ∈ labelNames a
    · rw [if_pos h2, if_pos ((h "bug").mp h2)]
    · rw [if_neg h2, if_neg (fun hb => h2 ((h "bug").mpr hb))]

/-- Claim C10: the classifier's output depends only on each pull request's set
of label names: positionwise equal label-name sets give positionwise equal
category assignments (label order and multiplicity are irrelevant). -/
theorem claim10_label_sets_determine (l₁ l₂ : List PullRequest)
    (h : List.Forall₂ sameLabelNames l₁ l₂) :
    l₁.map changeType = l₂.map changeType := by
  induction h with
  | nil => rfl
  | cons hab htail ih => simp [changeType_congr _ _ hab, ih]

def pullDupA : PullRequest := ⟨4, "A", true, ⟨2024, 3, 5⟩, [⟨"bug"⟩, ⟨"update"⟩]⟩
def pullDupB : PullRequest := ⟨5, "B", true, ⟨2024, 3, 5⟩, [⟨"update"⟩, ⟨"update"⟩, ⟨"bug"⟩]⟩

theorem claim10_witness :
    [pullDupA].map changeType = [pullDupB].map changeType := by
  have hs : sameLabelNames pullDupA pullDupB := by
    intro s
    constructor <;> intro hs <;> simp_all [labelNames, pullDupA, pullDupB] <;> tauto
  exact claim10_label_sets_determine [pullDupA] [pullDupB]
    (List.Forall₂.cons hs List.Forall₂.nil)

/-! ### Python `str.replace` on character lists -/

/-- The sentinel marker string of `CHANGELOG.md`. -/
def MARKER : List Char := "<!-- GENERATOR_PLACEHOLDER -->".data

/-- Scanner underlying Python `str.replace`: with skip `k + 1` the scanner is
inside an already-matched occurrence and only consumes; with skip `0` it
matches `pat` at the current position, emitting `rep` on success (skipping the
rest of the occurrence) or the current character otherwise. -/
def pyRepAux (pat rep : List Char) : Nat → List Char → List Char
  | _, [] => []
  | Nat.succ k, _ :: rest => pyRepAux pat rep k rest
  | 0, c :: rest =>
    if pat.isPrefixOf (c :: rest) then
      rep ++ pyRepAux pat rep (pat.length - 1) rest
    else
      c :: pyRepAux pat rep 0 rest

/-- Python `old.replace(pat, rep)`: replace every non-overlapping occurrence of
`pat`, scanning left to right (the replacement text is not rescanned). -/
def pyReplace (pat rep l : List Char) : List Char :=
  pyRepAux pat rep 0 l

/-- Embeds `write_changelog`: the file content becomes
`old_content.replace(MARKER, MARKER + "\n\n" + content)`. -/
def write_changelog (oldContent content : List Char) : List Char :=
  pyReplace MARKER (MARKER ++ '\n' :: '\n' :: content) oldContent

/-- `pat` occurs in `l` at position `i`. -/
def occursAt (pat l : List Char) (i : Nat) : Prop :=
  pat.isPrefixOf (l.drop i) = true

instance decOccursAt (pat l : List Char) (i : Nat) : Decidable (occursAt pat l i) :=
  inferInstanceAs (Decidable (pat.isPrefixOf (l.drop i) = true))

theorem drop_append_len (x q : List Char) (j : Nat) :
    (x ++ q).drop (x.length + j) = q.drop j := by
  induction x with
  | nil => simp
  | cons c cs ih =>
    have h : (c :: cs).length + j = (cs.length + j) + 1 := by
      simp only [List.length_cons]
      omega
    rw [h]
    exact ih

theorem drop_append_le (x t : List Char) (j : Nat) (h : j ≤ x.length) :
    (x ++ t).drop j = x.drop j ++ t := by
  induction x generalizing j with
  | nil => simp_all
  | cons c cs ih =>
    cases j with
    | zero => rfl
    | succ j' => simpa using ih j' (by simpa using h)

theorem take_append_le (x t : List Char) (n : Nat) (h : n ≤ x.length) :
    (x ++ t).take n = x.take n := by
  induction x generalizing n with
  | nil => simp_all
  | cons c cs ih =>
    cases n with
    | zero => rfl
    | succ n' => simpa using ih n' (by simpa using h)

theorem getElem?_drop_add (l : List Char) (j k : Nat) :
    (l.drop j)[k]? = l[j + k]? := by
  induction l generalizing j with
  | nil => simp
  | cons c cs ih =>
    cases j with
    | zero => simp
    | succ j' =>
      have h : j' + 1 + k = (j' + k) + 1 := by omega
      rw [h]
      simp

theorem getElem?_append_len (x y : List Char) (n : Nat) :
    (x ++ y)[x.length + n]? = y[n]? := by
  induction x with
  | nil => simp
  | cons c cs ih =>
    have h : (c :: cs).length + n = (cs.length + n) + 1 := by
      simp only [List.length_cons]
      omega
    rw [h]
    simpa using ih

theorem getElem?_append_lt (x y : List Char) (n : Nat) (h : n < x.length) :
    (x ++ y)[n]? = x[n]? := by
  induction x generalizing n with
  | nil => simp at h
  | cons c cs ih =>
    cases n with
    | zero => simp
    | succ n' => simpa using ih n' (by simpa using h)

theorem mem_of_getElem?_eq (l : List Char) (k : Nat) (a : Char)
    (h : l[k]? = some a) : a ∈ l := by
  induction l generalizing k with
  | nil => simp at h
  | cons c cs ih =>
    cases k with
    | zero =>
      simp only [List.getElem?_cons_zero, Option.some.injEq] at h
      simp [h]
    | succ k' => exact List.mem_cons_of_mem _ (ih k' (by simpa using h))

theorem isPrefixOf_append_self (x t : List Char) : x.isPrefixOf (x ++ t) = true := by
  induction x with
  | nil => simp [List.isPrefixOf]
  | cons c cs ih => simp [List.isPrefixOf, ih]

theorem eq_append_of_isPrefixOf (x l : List Char) (h : x.isPrefixOf l = true) :
    ∃ t, l = x ++ t := by
  induction x generalizing l with
  | nil => exact ⟨l, rfl⟩
  | cons c cs ih =>
    cases l with
    | nil => simp [List.isPrefixOf] at h
    | cons d ds =>
      simp only [List.isPrefixOf, Bool.and_eq_true, beq_iff_eq] at h
      obtain ⟨rfl, h2⟩ := h
      obtain ⟨t, rfl⟩ := ih ds h2
      exact ⟨t, rfl⟩

theorem length_le_of_isPrefixOf (x l : List Char) (h : x.isPrefixOf l = true) :
    x.length ≤ l.length := by
  obtain ⟨t, rfl⟩ := eq_append_of_isPrefixOf x l h
  simp

theorem not_occursAt_of_le (pat l : List Char) (i : Nat) (hpat : pat ≠ [])
    (h : l.length ≤ i) : ¬ occursAt pat l i := by
  intro hocc
  have h1 := length_le_of_isPrefixOf _ _ hocc
  rw [List.length_drop] at h1
  cases pat with
  | nil => exact hpat rfl
  | cons c cs =>
    simp only [List.length_cons] at h1
    omega

theorem occursAt_append_shift (pat x q : List Char) (j : Nat)
    (h : occursAt pat q j) : occursAt pat (x ++ q) (x.length + j) := by
  unfold occursAt at h ⊢
  rwa [drop_append_len]

theorem occursAt_transfer (pat x t₁ t₂ : List Char) (j : Nat)
    (h : occursAt pat (x ++ t₁) j) (hle : j + pat.length ≤ x.length) :
    occursAt pat (x ++ t₂) j := by
  have hj : j ≤ x.length := le_trans (Nat.le_add_right _ _) hle
  unfold occursAt at h ⊢
  rw [drop_append_le x t₁ j hj] at h
  rw [drop_append_le x t₂ j hj]
  obtain ⟨t, ht⟩ := eq_append_of_isPrefixOf _ _ h
  have hlen : pat.length ≤ (x.drop j).length := by
    rw [List.length_drop]
    omega
  have htake : (x.drop j).take pat.length = pat := by
    have h2 := congrArg (List.take pat.length) ht
    rwa [take_append_le _ _ _ hlen, take_append_le _ _ _ (le_refl pat.length),
      List.take_length] at h2
  have hx : x.drop j = pat ++ (x.drop j).drop pat.length := by
    conv_lhs => rw [← List.take_append_drop pat.length (x.drop j)]
    rw [htake]
  rw [hx, List.append_assoc]
  exact isPrefixOf_append_self _ _

theorem pyRepAux_skip (pat rep : List Char) (xs t : List Char) :
    pyRepAux pat rep xs.length (xs ++ t) = pyRepAux pat rep 0 t := by
  induction xs with
  | nil => rfl
  | cons c cs ih => simpa [pyRepAux] using ih

theorem pyRepAux_no_occ (pat rep l : List Char)
    (h : ∀ i, ¬ occursAt pat l i) : pyRepAux pat rep 0 l = l := by
  induction l with
  | nil => rfl
  | cons c rest ih =>
    have h0 : ¬ pat.isPrefixOf (c :: rest) = true := h 0
    rw [show pyRepAux pat rep 0 (c :: rest) = c :: pyRepAux pat rep 0 rest from by
      simp [pyRepAux, h0]]
    rw [ih (fun i hi => h (i + 1) hi)]

theorem pyRepAux_clean (pat rep : List Char) (p t : List Char)
    (h : ∀ i, i < p.length → ¬ occursAt pat (p ++ t) i) :
    pyRepAux pat rep 0 (p ++ t) = p ++ pyRepAux pat rep 0 t := by
  induction p with
  | nil => rfl
  | cons c cs ih =>
    have h0 : ¬ pat.isPrefixOf (c :: (cs ++ t)) = true := h 0 (by simp)
    rw [show pyRepAux pat rep 0 ((c :: cs) ++ t)
          = c :: pyRepAux pat rep 0 (cs ++ t) from by
      simp [pyRepAux, h0]]
    rw [ih (fun i hi hocc => h (i + 1) (by simpa using hi) hocc)]
    simp

theorem pyRepAux_match (pat rep q : List Char) (hpat : pat ≠ []) :
    pyRepAux pat rep 0 (pat ++ q) = rep ++ pyRepAux pat rep 0 q := by
  cases pat with
  | nil => exact absurd rfl hpat
  | cons c cs =>
    rw [show pyRepAux (c :: cs) rep 0 ((c :: cs) ++ q)
          = rep ++ pyRepAux (c :: cs) rep ((c :: cs).length - 1) (cs ++ q) from by
      simp [pyRepAux, isPrefixOf_append_self]]
    have h : (c :: cs).length - 1 = cs.length := by simp
    rw [h, pyRepAux_skip]

theorem MARKER_ne_nil : MARKER ≠ [] := by decide

theorem MARKER_length : MARKER.length = 30 := by decide

theorem newline_not_mem_MARKER : ¬ ('\n' ∈ MARKER) := by decide

theorem occursAt_marker (p tail : List Char) :
    occursAt MARKER (p ++ (MARKER ++ tail)) p.length := by
  unfold occursAt
  rw [show p.length = p.length + 0 from rfl, drop_append_len, List.drop_zero]
  exact isPrefixOf_append_self _ _

theorem write_changelog_split (p q frag : List Char)
    (hp : ∀ i, i < p.length → ¬ occursAt MARKER (p ++ MARKER ++ q) i)
    (hq : ∀ i, ¬ occursAt MARKER q i) :
    write_changelog (p ++ MARKER ++ q) frag
      = p ++ MARKER ++ ('\n' :: '\n' :: frag) ++ q := by
  unfold write_changelog pyReplace
  rw [List.append_assoc] at hp
  rw [show (p ++ MARKER ++ q) = p ++ (MARKER ++ q) from List.append_assoc p MARKER q]
  rw [pyRepAux_clean _ _ p (MARKER ++ q) hp]
  rw [pyRepAux_match _ _ q MARKER_ne_nil]
  rw [pyRepAux_no_occ _ _ q hq]
  simp [List.append_assoc]

theorem unique_marker_pos (p q : List Char)
    (huniq : ∃! i, occursAt MARKER (p ++ MARKER ++ q) i) :
    ∀ j, occursAt MARKER (p ++ MARKER ++ q) j → j = p.length := by
  obtain ⟨i0, hi0, huni⟩ := huniq
  have hlen : p.length = i0 := huni p.length (by
    rw [List.append_assoc]
    exact occursAt_marker p q)
  intro j hj
  exact (huni j hj).trans hlen.symm

/-- Claim C3 (amended): for a changelog in which the marker occurs at exactly
one position, and a rendered fragment that creates no marker occurrence in the
fragment-then-retained-content region, the update yields: pre-marker content,
the marker, a blank line, the fragment, then the previous post-marker content
unchanged; and the marker again occurs at exactly one position. -/
theorem claim3_changelog_marker (p q frag : List Char)
    (huniq : ∃! i, occursAt MARKER (p ++ MARKER ++ q) i)
    (hfrag : ∀ i, ¬ occursAt MARKER (frag ++ q) i) :
    write_changelog (p ++ MARKER ++ q) frag
        = p ++ MARKER ++ ('\n' :: '\n' :: frag) ++ q
    ∧ ∃! i, occursAt MARKER (write_changelog (p ++ MARKER ++ q) frag) i := by
  have hup := unique_marker_pos p q huniq
  have hp : ∀ i, i < p.length → ¬ occursAt MARKER (p ++ MARKER ++ q) i := by
    intro i hi hocc
    have h := hup i hocc
    omega
  have hq : ∀ i, ¬ occursAt MARKER q i := by
    intro i hocc
    have h2 : occursAt MARKER ((p ++ MARKER) ++ q) ((p ++ MARKER).length + i) :=
      occursAt_append_shift MARKER (p ++ MARKER) q i hocc
    have h3 := hup _ h2
    rw [List.length_append, MARKER_length] at h3
    omega
  have heq := write_changelog_split p q frag hp hq
  refine ⟨heq, ?_⟩
  rw [heq]
  refine ⟨p.length, ?_, ?_⟩
  · rw [List.append_assoc, List.append_assoc]
    exact occursAt_marker p _
  · intro j hj
    by_cases hle : j + MARKER.length ≤ (p ++ MARKER).length
    · have hj2 : occursAt MARKER ((p ++ MARKER) ++ (('\n' :: '\n' :: frag) ++ q)) j := by
        simpa [List.append_assoc] using hj
      have hocc : occursAt MARKER ((p ++ MARKER) ++ q) j :=
        occursAt_transfer MARKER (p ++ MARKER) _ q j hj2 hle
      exact hup j hocc
    · push_neg at hle
      rw [List.length_append, MARKER_length] at hle
      by_cases hj32 : p.length + 32 ≤ j
      · exfalso
        have hocc : occursAt MARKER (frag ++ q) (j - (p.length + 32)) := by
          unfold occursAt at hj ⊢
          have hsplit : p ++ MARKER ++ ('\n' :: '\n' :: frag) ++ q
              = (p ++ MARKER ++ ['\n', '\n']) ++ (frag ++ q) := by
            simp [List.append_assoc]
          rw [hsplit] at hj
          have hlen2 : (p ++ MARKER ++ ['\n', '\n']).length = p.length + 32 := by
            simp [MARKER_length]
          have hj' : j = (p ++ MARKER ++ ['\n', '\n']).length + (j - (p.length + 32)) := by
            rw [hlen2]
            omega
          rw [hj', drop_append_len] at hj
          exact hj
        exact hfrag _ hocc
      · exfalso
        push_neg at hj32
        obtain ⟨t0, ht0⟩ := eq_append_of_isPrefixOf _ _ hj
        have hval : ∀ k, k < MARKER.length →
            MARKER[k]? = (p ++ MARKER ++ ('\n' :: '\n' :: frag) ++ q)[j + k]? := by
          intro k hk
          rw [← getElem?_drop_add, ht0, getElem?_append_lt _ _ _ hk]
        have hnl : ∀ m, m < 2 →
            (p ++ MARKER ++ ('\n' :: '\n' :: frag) ++ q)[p.length + 30 + m]? = some '\n' := by
          intro m hm
          have hsplit : p ++ MARKER ++ ('\n' :: '\n' :: frag) ++ q
              = (p ++ MARKER) ++ (('\n' :: '\n' :: frag) ++ q) := by
            simp [List.append_assoc]
          have hlen2 : (p ++ MARKER).length = p.length + 30 := by
            simp [MARKER_length]
          rw [hsplit, show p.length + 30 + m = (p ++ MARKER).length + m from by rw [hlen2],
            getElem?_append_len]
          interval_cases m <;> simp
        rcases Nat.lt_or_ge j (p.length + 31) with hcase | hcase
        · have hk : p.length + 30 - j < MARKER.length := by
            rw [MARKER_length]
            omega
          have hv := hval _ hk
          rw [show j + (p.length + 30 - j) = p.length + 30 + 0 from by omega,
            hnl 0 (by omega)] at hv
          exact newline_not_mem_MARKER (mem_of_getElem?_eq _ _ _ hv)
        · have hk : p.length + 31 - j < MARKER.length := by
            rw [MARKER_length]
            omega
          have hv := hval _ hk
          rw [show j + (p.length + 31 - j) = p.length + 30 + 1 from by omega,
            hnl 1 (by omega)] at hv
          exact newline_not_mem_MARKER (mem_of_getElem?_eq _ _ _ hv)

/-- Claim C3 counterexample input: a changelog text containing the marker at
two positions. -/
def doubleMarker : List Char := MARKER ++ MARKER

theorem claim3_counterexample :
    (∃ i, occursAt MARKER doubleMarker i)
    ∧ ¬ (∃! i, occursAt MARKER (write_changelog doubleMarker []) i) := by
  constructor
  · exact ⟨0, by decide⟩
  · rintro ⟨i, hi, huni⟩
    have h0 : (0 : Nat) = i := huni 0 (by decide)
    have h32 : (32 : Nat) = i := huni 32 (by decide)
    omega

def clogPre : List Char := "# Changelog\n\n".data

def clogPost : List Char := "\n\n## 2024.03.04\nolder\n".data

def frag0 : List Char := "## 2024.03.05\n- Edit docs\n".data

theorem claim3_witness :
    write_changelog (clogPre ++ MARKER ++ clogPost) frag0
      = clogPre ++ MARKER ++ ('\n' :: '\n' :: frag0) ++ clogPost := by
  have hlen : (clogPre ++ MARKER ++ clogPost).length = 65 := by decide
  have hbdd : ∀ j, j < 65 → occursAt MARKER (clogPre ++ MARKER ++ clogPost) j → j = 13 := by
    decide
  have huniq : ∃! i, occursAt MARKER (clogPre ++ MARKER ++ clogPost) i := by
    refine ⟨13, by decide, ?_⟩
    intro j hj
    by_cases hb : j < 65
    · exact hbdd j hb hj
    · exact absurd hj (not_occursAt_of_le MARKER _ j MARKER_ne_nil (by omega))
  have hfrag : ∀ i, ¬ occursAt MARKER (frag0 ++ clogPost) i := by
    have hlen2 : (frag0 ++ clogPost).length = 48 := by decide
    have hbdd2 : ∀ j, j < 48 → ¬ occursAt MARKER (frag0 ++ clogPost) j := by decide
    intro i
    by_cases hb : i < 48
    · exact hbdd2 i hb
    · exact not_occursAt_of_le MARKER _ i MARKER_ne_nil (by omega)
  exact (claim3_changelog_marker clogPre clogPost frag0 huniq hfrag).1

/-- Claim C9: if the marker occurs nowhere in the changelog, the update writes
the content back unchanged; the embedded operation is total, so no error
arises. -/
theorem claim9_no_marker_no_op (oldContent frag : List Char)
    (h : ∀ i, ¬ occursAt MARKER oldContent i) :
    write_changelog oldContent frag = oldContent := by
  unfold write_changelog pyReplace
  exact pyRepAux_no_occ _ _ _ h

def plainFile : List Char := "# Changelog\nno entries yet\n".data

theorem claim9_witness : write_changelog plainFile frag0 = plainFile := by
  have hlen : plainFile.length = 27 := by decide
  have hbdd : ∀ j, j < 27 → ¬ occursAt MARKER plainFile j := by decide
  refine claim9_no_marker_no_op plainFile frag0 ?_
  intro i
  by_cases hb : i < 27
  · exact hbdd i hb
  · exact not_occursAt_of_le MARKER _ i MARKER_ne_nil (by omega)

/-! ### Python `re.sub` for the version pattern -/

/-- The literal head of the version pattern: a newline followed by
`version = "`. -/
def VER_HEAD : List Char := "\nversion = \"".data

/-- Matcher for the regular expression `\nversion = "\d+\.\d+\.\d+"\n`
anchored at the start of `l`; returns the number of characters the match
consumes.  The greedy `\d+` runs cannot usefully backtrack across the literal
separators (a digit never matches `\.` or `"`), so maximal digit munching is
exact. -/
def matchVersionAt (l : List Char) : Option Nat :=
  if VER_HEAD.isPrefixOf l then
    let rest := l.drop VER_HEAD.length
    let d1 := rest.takeWhile Char.isDigit
    let r1 := rest.dropWhile Char.isDigit
    if d1.isEmpty then none
    else
      match r1 with
      | '.' :: r1x =>
        let d2 := r1x.takeWhile Char.isDigit
        let r2 := r1x.dropWhile Char.isDigit
        if d2.isEmpty then none
        else
          match r2 with
          | '.' :: r2x =>
            let d3 := r2x.takeWhile Char.isDigit
            let r3 := r2x.dropWhile Char.isDigit
            if d3.isEmpty then none
            else
              match r3 with
              | '"' :: '\n' :: _ =>
                some (VER_HEAD.length + d1.length + 1 + d2.length + 1 + d3.length + 2)
              | _ => none
          | _ => none
      | _ => none
  else none

/-- Scanner underlying `re.sub` for the version pattern, analogous to
`pyRepAux`: skip `k + 1` consumes a character of an already-matched
occurrence; skip `0` tries the pattern at the current position. -/
def subVerAux (rep : List Char) : Nat → List Char → List Char
  | _, [] => []
  | Nat.succ k, _ :: rest => subVerAux rep k rest
  | 0, c :: rest =>
    match matchVersionAt (c :: rest) with
    | some n => rep ++ subVerAux rep (n - 1) rest
    | none => c :: subVerAux rep 0 rest

/-- Embeds `update_version`:
`re.sub(r'\nversion = "\d+\.\d+\.\d+"\n', f'version = "{release}"', old)` —
note the replacement text restores neither of the two consumed newlines. -/
def update_version (content release : List Char) : List Char :=
  subVerAux ("version = \"".data ++ release ++ "\"".data) 0 content

/-- Executable check: some position of `content` matches the version pattern. -/
def hasVersionMatch (content : List Char) : Bool :=
  (List.range content.length).any (fun i => (matchVersionAt (content.drop i)).isSome)

theorem matchVersionAt_nil : matchVersionAt [] = none := by decide

theorem subVerAux_id (rep l : List Char)
    (h : ∀ i, matchVersionAt (l.drop i) = none) : subVerAux rep 0 l = l := by
  induction l with
  | nil => rfl
  | cons c rest ih =>
    have h0 := h 0
    rw [List.drop_zero] at h0
    rw [show subVerAux rep 0 (c :: rest) = c :: subVerAux rep 0 rest from by
      simp [subVerAux, h0]]
    rw [ih (fun i => h (i + 1))]

theorem matchVersionAt_none_of_false (content : List Char)
    (h : hasVersionMatch content = false) :
    ∀ i, matchVersionAt (content.drop i) = none := by
  intro i
  by_cases hb : i < content.length
  · have hall := List.any_eq_false.mp h i (List.mem_range.mpr hb)
    exact Option.not_isSome_iff_eq_none.mp hall
  · rw [List.drop_eq_nil_of_le (by omega)]
    exact matchVersionAt_nil

/-- Claim C2 (amended): when no position of the version file matches the
version pattern, `update_version` completes normally and returns the content
unchanged — a silent no-op, not a propagated error. -/
theorem claim2_no_match_silent (content release : List Char)
    (h : hasVersionMatch content = false) :
    update_version content release = content := by
  unfold update_version
  exact subVerAux_id _ _ (matchVersionAt_none_of_false content h)

/-- A malformed version file: the value is not numeric, so nothing matches
the version pattern. -/
def badVersionFile : List Char := "version = \"abc\"\n".data

/-- A second input without any version assignment at all. -/
def noVersionFile : List Char := "nothing here\n".data

def rel0 : List Char := "2024.03.05".data

/-- Claim C2 counterexample: on a malformed version file the embedded
`update_version` — total, exactly as `re.sub` raises nothing when no match
exists — completes and returns the content unchanged instead of failing. -/
theorem claim2_counterexample :
    hasVersionMatch badVersionFile = false
    ∧ update_version badVersionFile rel0 = badVersionFile := by
  exact ⟨by decide, by decide⟩

theorem claim2_witness :
    hasVersionMatch noVersionFile = false
    ∧ update_version noVersionFile rel0 = noVersionFile :=
  ⟨by decide, claim2_no_match_silent noVersionFile rel0 (by decide)⟩

def versionFile0 : List Char :=
  "name = \"x\"\nversion = \"1.2.3\"\nauthor = \"y\"\n".data

/-- What the code produces on `versionFile0`: the newline before and the
newline after the version line are consumed by the pattern and not restored
by the replacement, so the three lines collapse into one. -/
def versionFileAfter : List Char :=
  "name = \"x\"version = \"2024.03.05\"author = \"y\"\n".data

/-- What claim C1 requires on `versionFile0`: only the version value changes
and every other line stays byte-identical. -/
def versionFileSpec : List Char :=
  "name = \"x\"\nversion = \"2024.03.05\"\nauthor = \"y\"\n".data

/-- Claim C1: on a file whose middle line is the unique version line,
`update_version` deletes the two newlines adjacent to that line (the pattern
`\nversion = "\d+\.\d+\.\d+"\n` consumes them; the replacement
`version = "{release}"` does not restore them), so the neighbouring lines are
not byte-identical afterwards — the code contradicts the claimed frame
property. -/
theorem claim1_version_bump_eval :
    hasVersionMatch versionFile0 = true
    ∧ update_version versionFile0 rel0 = versionFileAfter
    ∧ update_version versionFile0 rel0 ≠ versionFileSpec :=
  ⟨by decide, by decide, by decide⟩

/-! ### Git step -/

/-- Git commands issued through `repo.git`, in issue order. -/
inductive GitCmd where
  | add (path : String)
  | commit (message : String) (author : String)
  | tagAnnotated (name : String)
  | push (url : String) (ref : String)
  | pushTags (url : String) (ref : String)
deriving DecidableEq

/-- The module constant `DEFAULT_BRANCH = "master"`. -/
def DEFAULT_BRANCH : String := "master"

/-- The push URL `https://{GITHUB_TOKEN}@github.com/{GITHUB_REPO}.git`. -/
def serverUrl (token repoId : String) : String :=
  "https://" ++ token ++ "@github.com/" ++ repoId ++ ".git"

/-- Embeds `update_git_repo` as the trace of git commands it issues. -/
def update_git_repo (paths : List String) (release token repoId : String) :
    List GitCmd :=
  paths.map GitCmd.add ++
    [GitCmd.commit ("Release " ++ release) "GitHub Actions <actions@github.com>",
     GitCmd.tagAnnotated release,
     GitCmd.push (serverUrl token repoId) DEFAULT_BRANCH,
     GitCmd.pushTags (serverUrl token repoId) DEFAULT_BRANCH]

/-- `needle` occurs somewhere inside `hay`. -/
def strContains (needle hay : String) : Prop :=
  ∃ i, needle.data.isPrefixOf (hay.data.drop i) = true

/-- The fixed author identity the script commits with. -/
def GIT_AUTHOR : String := "GitHub Actions <actions@github.com>"

/-- Claimed git-step shape, stated from the spec's words: stage exactly the
two files, commit with the fixed author identity and a message containing the
release identifier, create an annotated tag named with the release
identifier, then push the current branch and push all tags to a URL that
embeds the authentication token. -/
def claimedGitStep (trace : List GitCmd)
    (changelogPath versionPath release token currentBranch : String) : Prop :=
  ∃ msg url,
    strContains release msg ∧ strContains token url ∧
    trace = [GitCmd.add changelogPath, GitCmd.add versionPath,
             GitCmd.commit msg GIT_AUTHOR, GitCmd.tagAnnotated release,
             GitCmd.push url currentBranch, GitCmd.pushTags url currentBranch]

/-- Claim C4 counterexample: with the repository checked out on branch
`develop`, the git step still pushes the constant `master`, so the claimed
sequence — which pushes the current branch — does not hold. -/
theorem claim4_counterexample :
    ¬ claimedGitStep
        (update_git_repo ["CHANGELOG.md", "setup.py"] "2024.03.05" "tok" "owner/repo")
        "CHANGELOG.md" "setup.py" "2024.03.05" "tok" "develop" := by
  rintro ⟨msg, url, hmsg, hurl, heq⟩
  simp [update_git_repo, DEFAULT_BRANCH, serverUrl] at heq

theorem isPrefixOf_self (x : List Char) : x.isPrefixOf x = true := by
  have h := isPrefixOf_append_self x []
  rwa [List.append_nil] at h

/-- Claim C4 (amended): for any release identifier the git step performs
exactly the claimed sequence with the fixed default branch `master` in place
of "the current branch". -/
theorem claim4_git_sequence (changelogPath versionPath release token repoId : String) :
    claimedGitStep (update_git_repo [changelogPath, versionPath] release token repoId)
      changelogPath versionPath release token DEFAULT_BRANCH := by
  refine ⟨"Release " ++ release, serverUrl token repoId, ?_, ?_, rfl⟩
  · refine ⟨8, ?_⟩
    have hd : ("Release " ++ release).data = "Release ".data ++ release.data := rfl
    rw [hd, show (8 : Nat) = ("Release ".data).length + 0 from by decide,
      drop_append_len, List.drop_zero]
    exact isPrefixOf_self _
  · refine ⟨8, ?_⟩
    have hd : (serverUrl token repoId).data
        = "https://".data ++ (token.data
            ++ ("@github.com/".data ++ (repoId.data ++ ".git".data))) := by
      show (((("https://" ++ token) ++ "@github.com/") ++ repoId) ++ ".git").data = _
      simp [List.append_assoc]
    rw [hd, show (8 : Nat) = ("https://".data).length + 0 from by decide,
      drop_append_len, List.drop_zero]
    exact isPrefixOf_append_self _ _

/-! ### Main workflow -/

/-- The observable effects of `main`: the new changelog content (if written),
the new version-file content (if written), the git command trace, and the
created remote release (tag-and-name paired with its body), if any. -/
structure MainEffects where
  changelogWrite : Option (List Char)
  versionWrite : Option (List Char)
  gitCmds : List GitCmd
  releaseCreated : Option (String × List Char)
deriving DecidableEq

/-- Embeds `main`.  The fetched pages, the target date, the renderer
(`generate_md` together with the template file, which lives outside the
script), the two file contents, the release identifier `RELEASE` derived from
the target date, and the credentials are explicit parameters. -/
def main_effects (pages : List (List PullRequest)) (target : Date)
    (render : List (String × List PullRequest) → List Char)
    (changelogContent versionContent : List Char)
    (release token repoId : String) : MainEffects :=
  let merged_pulls := iter_pulls pages target
  if merged_pulls.isEmpty then
    ⟨none, none, [], none⟩
  else
    let grouped_pulls := group_pulls_by_change_type merged_pulls
    let summary := render grouped_pulls
    ⟨some (write_changelog changelogContent summary),
     some (update_version versionContent release.data),
     update_git_repo ["CHANGELOG.md", "setup.py"] release token repoId,
     some (release, summary)⟩

/-- Claim C7: when no pull request of the first page was merged on the target
date, `main` stops right after the fetch stage: neither file content changes,
no git command is issued, and no remote release is created. -/
theorem claim7_no_data_no_effects (pages : List (List PullRequest)) (target : Date)
    (render : List (String × List PullRequest) → List Char)
    (changelogContent versionContent : List Char) (release token repoId : String)
    (h : ∀ pull ∈ pages.headD [], ¬ (pull.merged = true ∧ pull.mergedAt = target)) :
    main_effects pages target render changelogContent versionContent release token repoId
      = ⟨none, none, [], none⟩ := by
  have hnil : iter_pulls pages target = [] := by
    unfold iter_pulls
    refine List.filter_eq_nil_iff.mpr ?_
    intro pull hmem hpred
    rw [Bool.and_eq_true, decide_eq_true_eq] at hpred
    exact h pull hmem ⟨hpred.1, hpred.2⟩
  unfold main_effects
  rw [hnil]
  rfl

def stalePage : List PullRequest :=
  [⟨9, "Old", true, ⟨2024, 3, 1⟩, []⟩, ⟨10, "Open", false, ⟨2024, 3, 5⟩, []⟩]

def date0 : Date := ⟨2024, 3, 5⟩

theorem claim7_witness :
    main_effects [stalePage] date0 (fun _ => []) [] [] "2024.03.05" "tok" "owner/repo"
      = ⟨none, none, [], none⟩ :=
  claim7_no_data_no_effects _ _ _ _ _ _ _ _ (by decide)

/-- Claim C8: the fetcher's output contains exactly the first-page pull
requests whose merged flag is set and whose merge date equals the target date
(so anything merged that day but absent from the first page is omitted), and
it is an order-preserving selection (sublist) of the first page as the API
returned it. -/
theorem claim8_fetch_filter (pages : List (List PullRequest)) (target : Date) :
    (∀ pull, pull ∈ iter_pulls pages target
        ↔ pull ∈ pages.headD [] ∧ pull.merged = true ∧ pull.mergedAt = target)
    ∧ List.Sublist (iter_pulls pages target) (pages.headD []) := by
  constructor
  · intro pull
    unfold iter_pulls
    rw [List.mem_filter, Bool.and_eq_true, decide_eq_true_eq]
  · exact List.filter_sublist _

end ChangelogScript
